import Mathlib

/-!
Verification of the cup archiver (crisanmm/custom-unpacker).

The development shallowly embeds the Python sources:

* `src/cup/fileheader.py` — the `FileHeader` record: an 18-byte fixed prefix
  (8-byte little-endian content offset, 4-byte timestamp, 4-byte size,
  2-byte path length) followed by the path bytes, stored in one backing
  byte array (`bytearray` ↦ `List Nat`, each element a byte value).
* `src/cup/archiver.py` — `pack`, `info`, `unpack`, the sentinel header
  scan `_header_list_from_archive`, and the offset assignment of
  `_header_path_list_from_paths`.
* `src/Cup.py` — the older front end; of it we model `_resolve_renaming`
  (integer/string rename selectors) with Python list indexing.

Filesystem traversal, `stat` calls and stream I/O are host-platform
collaborators: files are modelled by the byte lists `pack` reads, and an
archive by the byte list the functions operate on.  Python's unbounded
`while` loop in the header scan is modelled with explicit fuel; fuel
exhaustion (`CupError.nonTermination`) marks inputs on which the Python
loop never terminates, and the fuel supplied is large enough that every
terminating run of the source loop is reproduced.
-/

namespace Cup

/-- Little-endian interpretation of a byte list, as produced by Python's
`int.from_bytes(b, 'little')`.  Python accepts short (even empty) byte
strings, so this is total. -/
def bytesToNat : List Nat → Nat
  | [] => 0
  | b :: bs => b + 256 * bytesToNat bs

/-- Little-endian encoding of `n` on exactly `w` bytes; the digit list of
`n.to_bytes(w, 'little')` when `n < 256 ^ w`. -/
def natToBytes : Nat → Nat → List Nat
  | 0, _ => []
  | w + 1, n => n % 256 :: natToBytes w (n / 256)

/-- Error inventory.  The first five constructors are the classes of
`src/cup/exceptions.py`.  `overflowError` and `indexError` are the Python
built-ins raised by `int.to_bytes` and by list indexing.
`extractionFailure` stands for a host-filesystem error raised while
creating or writing one extracted file (`unpack`'s loop body).
`nonTermination` marks fuel exhaustion in the fuelled header scan, i.e.
inputs on which the Python `while` loop never terminates.
`invalidPathError` and `corruptHeaderBlock` appear in the specification's
error taxonomy but correspond to no class in the source; they exist here
only so that claims naming them can be stated (no definition below ever
produces them). -/
inductive CupError where
  | archiveAlreadyExists
  | resourceNonExistent
  | resourceCantBeArchived
  | archiveNonExistent
  | archiveNotRecognizable
  | overflowError
  | indexError
  | extractionFailure
  | nonTermination
  | invalidPathError
  | corruptHeaderBlock
deriving DecidableEq

/-- Python's `int.to_bytes(w, 'little')` raises `OverflowError` when the
value does not fit in `w` bytes; this fallible wrapper mirrors that. -/
def natToBytesE (w n : Nat) : Except CupError (List Nat) :=
  if n < 256 ^ w then .ok (natToBytes w n) else .error .overflowError

/-- Python slice read `l[a:b]` (for `a ≤ b`): clamps at the ends, never
fails.  `archive.read(n)` positioned at `a` is `slice l a (a + n)`. -/
def slice (l : List Nat) (a b : Nat) : List Nat := (l.drop a).take (b - a)

/-- Python slice assignment `l[a:b] = v`: the result is `l[:a] ++ v ++ l[b:]`.
Every use in the source replaces a range with a value of equal length, but
the definition keeps Python's general semantics. -/
def setSlice (l : List Nat) (a b : Nat) (v : List Nat) : List Nat :=
  l.take a ++ v ++ l.drop b

/-- The `FileHeader` of `src/cup/fileheader.py`: one backing byte array
(`self.header_array`). -/
structure FileHeader where
  header_array : List Nat
deriving DecidableEq

namespace FileHeader

/-- Property `header_size`: `len(self.header_array)`. -/
def header_size (fh : FileHeader) : Nat := fh.header_array.length

/-- Property `file_offset`: `int.from_bytes(self.header_array[0:8], 'little')`. -/
def file_offset (fh : FileHeader) : Nat := bytesToNat (slice fh.header_array 0 8)

/-- Property `file_timestamp`: bytes 8–12, little-endian. -/
def file_timestamp (fh : FileHeader) : Nat := bytesToNat (slice fh.header_array 8 12)

/-- Property `file_size`: bytes 12–16, little-endian. -/
def file_size (fh : FileHeader) : Nat := bytesToNat (slice fh.header_array 12 16)

/-- Property `file_path_length`: bytes 16–18, little-endian. -/
def file_path_length (fh : FileHeader) : Nat := bytesToNat (slice fh.header_array 16 18)

/-- Property `file_path`: `self.header_array[18 : 18 + self.file_path_length]`,
kept as raw bytes (the format stores single-byte characters). -/
def file_path (fh : FileHeader) : List Nat :=
  slice fh.header_array 18 (18 + fh.file_path_length)

/-- A header is consistent when its backing array has exactly the length
its own `path_length` field announces — the shape every header written by
`pack` has, and the shape the sentinel scan relies on. -/
def consistent (fh : FileHeader) : Prop :=
  fh.header_array.length = 18 + fh.file_path_length

instance (fh : FileHeader) : Decidable fh.consistent := by
  unfold consistent; infer_instance

/-- Setter `file_offset`: `self.header_array[0:8] = offset.to_bytes(8, 'little')`. -/
def set_file_offset (fh : FileHeader) (ofs : Nat) : Except CupError FileHeader := do
  let b ← natToBytesE 8 ofs
  pure ⟨setSlice fh.header_array 0 8 b⟩

/-- Constructor path of `FileHeader.from_file` (src/cup/fileheader.py,
lines 148–154), taking the already-computed relative path as bytes, the
integer-truncated `st_mtime` and `st_size`: allocate `bytearray(18 + len)`,
then run the timestamp, size, path-length and path setters in source
order.  The filesystem part of `from_file` (resolving the relative path,
`stat`) is a host collaborator and is reflected in the arguments. -/
def from_file (path : List Nat) (mtime size : Nat) : Except CupError FileHeader := do
  let a0 := List.replicate (18 + path.length) 0
  let tb ← natToBytesE 4 mtime
  let a1 := setSlice a0 8 12 tb
  let sb ← natToBytesE 4 size
  let a2 := setSlice a1 12 16 sb
  let pb ← natToBytesE 2 path.length
  let a3 := setSlice a2 16 18 pb
  let a4 := setSlice a3 18 (18 + path.length) path
  pure ⟨a4⟩

/-- Method `with_different_path` (src/cup/fileheader.py, lines 101–108):
allocate a fresh zeroed array of size `18 + len(new)`, copy the 16-byte
offset/time/size prefix plus the old length field (`[0:18]`), then run the
path-length and path setters. -/
def with_different_path (fh : FileHeader) (newPath : List Nat) :
    Except CupError FileHeader := do
  let a0 := setSlice (List.replicate (18 + newPath.length) 0) 0 18
      (slice fh.header_array 0 18)
  let pb ← natToBytesE 2 newPath.length
  let a1 := setSlice a0 16 18 pb
  let a2 := setSlice a1 18 (18 + newPath.length) newPath
  pure ⟨a2⟩

/-- Static method `from_archive` (src/cup/fileheader.py, lines 110–130)
with the stream positioned at `pos`: peek the 2-byte path length at
`pos + 16`, then read `18 + path_length` bytes starting at `pos`; the
stream position is restored before returning, so decoding moves no
cursor.  Reads past end-of-file clamp, exactly as Python's `read` does. -/
def from_archive (archive : List Nat) (pos : Nat) : FileHeader :=
  let plen := bytesToNat (slice archive (pos + 16) (pos + 18))
  ⟨slice archive pos (pos + (18 + plen))⟩

end FileHeader

/-- Canonical header layout: the byte array every source-built header has.
`FileHeader.from_file` produces it with offset 0 and the offset assignment
rewrites the first 8 bytes. -/
def mkH (ofs t s : Nat) (path : List Nat) : FileHeader :=
  ⟨natToBytes 8 ofs ++ natToBytes 4 t ++ natToBytes 4 s ++
    natToBytes 2 path.length ++ path⟩

/-- Constant `FILE_SIGNATURE = b'__C__U__P__'` of src/cup/archiver.py. -/
def FILE_SIGNATURE : List Nat := [95, 95, 67, 95, 95, 85, 95, 95, 80, 95, 95]

/-- Total byte size of a header list, `sum(h.header_size for h in hs)`. -/
def totalHeaderSize (hs : List FileHeader) : Nat :=
  (hs.map FileHeader.header_size).sum

/-- Total of the stored content sizes of a header list. -/
def totalFileSize (hs : List FileHeader) : Nat :=
  (hs.map FileHeader.file_size).sum

/-- Concatenated encodings of a header list — the header block `pack` writes. -/
def headerBytes (hs : List FileHeader) : List Nat :=
  (hs.map FileHeader.header_array).flatten

/-- An archive laid out as `pack` writes it: signature, header block, content. -/
def mkArchive (hs : List FileHeader) (content : List Nat) : List Nat :=
  FILE_SIGNATURE ++ (headerBytes hs ++ content)

/-- Boolean lexicographic comparison of byte lists: Python's `<=` on the
path strings used as the sort key of `file_header_list.sort(key=...)`. -/
def lexLe : List Nat → List Nat → Bool
  | [], _ => true
  | _ :: _, [] => false
  | a :: as, b :: bs => if a < b then true else if b < a then false else lexLe as bs

/-- The sort order of the header list: compare headers by `file_path`. -/
def pathLe (a b : FileHeader) : Prop := lexLe a.file_path b.file_path = true

instance : DecidableRel pathLe := fun _ _ => instDecidableEqBool _ _

instance : IsTotal FileHeader pathLe where
  total := by
    have h : ∀ x y : List Nat, lexLe x y = true ∨ lexLe y x = true := by
      intro x
      induction x with
      | nil => intro y; left; rfl
      | cons a as ih =>
        intro y
        cases y with
        | nil => right; rfl
        | cons b bs =>
          simp only [lexLe]
          rcases Nat.lt_trichotomy a b with hab | hab | hab
          · left; simp [hab]
          · subst hab
            simpa [Nat.lt_irrefl] using ih bs
          · right; simp [hab, Nat.lt_asymm hab]
    intro a b
    exact h a.file_path b.file_path

instance : IsTrans FileHeader pathLe where
  trans := by
    have h : ∀ x y z : List Nat,
        lexLe x y = true → lexLe y z = true → lexLe x z = true := by
      intro x
      induction x with
      | nil => intro y z _ _; rfl
      | cons a as ih =>
        intro y z h1 h2
        cases y with
        | nil => simp [lexLe] at h1
        | cons b bs =>
          cases z with
          | nil => simp [lexLe] at h2
          | cons c cs =>
            simp only [lexLe] at h1 h2 ⊢
            split_ifs at h1 h2 ⊢ <;>
              first
                | rfl
                | omega
                | exact ih bs cs h1 h2
    intro a b c hab hbc
    exact h a.file_path b.file_path c.file_path hab hbc

/-- Sorting step `file_header_list.sort(key=lambda fh: fh.file_path)`:
Python's sort is a stable sort by the key, hence (stable sorts being
unique) equal to insertion sort by `pathLe`. -/
def sortHeaders (hs : List FileHeader) : List FileHeader :=
  List.insertionSort pathLe hs

/-- Fuelled image of the `while current_seek < header_list_sentinel` loop of
`_header_list_from_archive` (src/cup/archiver.py, lines 131–135): decode a
header at the cursor, advance the cursor by the decoded header's own
`header_size`, repeat while the cursor is below the sentinel.  Returns the
decoded headers and the final cursor; `none` when fuel runs out, which —
with the fuel chosen by the caller below — happens exactly on inputs where
the Python loop repeats one position forever. -/
def scanLoop (archive : List Nat) (sentinel : Nat) : Nat → Nat → Option (List FileHeader × Nat)
  | 0, _ => none
  | fuel + 1, pos =>
    if pos < sentinel then
      let fh := FileHeader.from_archive archive pos
      match scanLoop archive sentinel fuel (pos + fh.header_size) with
      | some (rest, fin) => some (fh :: rest, fin)
      | none => none
    else
      some ([], pos)

/-- Function `_header_list_from_archive` (src/cup/archiver.py,
lines 110–138) on the archive's bytes: check the signature, decode the
first header, record its stored `file_offset` as the sentinel, run the
scan loop from the cursor `len(FILE_SIGNATURE) + first.header_size`, and
sort the collected headers by path.  The existence check on the archive
path is a filesystem collaborator and outside the byte model.  A fuel of
`sentinel + 1` exceeds the iteration count of every terminating run, since
each iteration of a terminating run advances the cursor. -/
def _header_list_from_archive (archive : List Nat) : Except CupError (List FileHeader) :=
  if slice archive 0 FILE_SIGNATURE.length = FILE_SIGNATURE then
    match scanLoop archive (FileHeader.from_archive archive FILE_SIGNATURE.length).file_offset
        ((FileHeader.from_archive archive FILE_SIGNATURE.length).file_offset + 1)
        (FILE_SIGNATURE.length +
          (FileHeader.from_archive archive FILE_SIGNATURE.length).header_size) with
    | some (rest, _) =>
      .ok (sortHeaders (FileHeader.from_archive archive FILE_SIGNATURE.length :: rest))
    | none => .error .nonTermination
  else
    .error .archiveNotRecognizable

/-- Function `info` (src/cup/archiver.py, lines 57–73): read the headers,
then `enumerate` them — Python's `enumerate` starts at 0 — into
`(index, size, timestamp, path)` tuples. -/
def info (archive : List Nat) : Except CupError (List (Nat × Nat × Nat × List Nat)) := do
  let fhl ← _header_list_from_archive archive
  pure (fhl.enum.map fun p => (p.1, p.2.file_size, p.2.file_timestamp, p.2.file_path))

/-- A rename selector as passed to `unpack`: Python permits either an
`int` or a `str` in the first slot of a renaming pair. -/
inductive Selector where
  | int (k : Int)
  | str (s : List Nat)
deriving DecidableEq

/-- Python `dict` built from the renaming pairs, then key lookup: later
pairs with an equal key override earlier ones, and lookup compares keys
with `==` — an `int` key never equals a `str` key. -/
def dictLookup (ps : List (Selector × List Nat)) (k : Selector) : Option (List Nat) :=
  (ps.reverse.find? fun p => decide (p.1 = k)).map Prod.snd

/-- Function `_unpack_file` (src/cup/archiver.py, lines 206–222) as the
write it performs: seek to the header's `file_offset` and copy
`file_size` bytes (the chunked loop reads exactly the available bytes of
that range) into the file named by the header's `file_path`. -/
def _unpack_file (archive : List Nat) (fh : FileHeader) : List Nat × List Nat :=
  (fh.file_path, slice archive fh.file_offset (fh.file_offset + fh.file_size))

/-- Function `unpack` (src/cup/archiver.py, lines 76–107) reduced to the
file writes it performs, in order.  With no renaming pairs the `if
renaming:` branch is skipped and every header is extracted; otherwise the
headers are filtered to those whose path is a key of the renaming dict and
re-created with `with_different_path` on the looked-up replacement (the
source's filter-then-map is fused into one `filterMap`; the lookup cannot
miss after the filter).  Destination-directory creation and the working
directory switch are filesystem collaborators (see `unpackCwd`). -/
def unpack (renamings : List (Selector × List Nat)) (archive : List Nat) :
    Except CupError (List (List Nat × List Nat)) := do
  let fhl ← _header_list_from_archive archive
  if renamings.isEmpty then
    pure (fhl.map (_unpack_file archive))
  else
    let selected := fhl.filterMap fun fh =>
      (dictLookup renamings (Selector.str fh.file_path)).map (fh, ·)
    let renamed ← selected.mapM fun p => p.1.with_different_path p.2
    pure (renamed.map (_unpack_file archive))

/-- One flattened input file of `pack`: its resolved absolute source path
(`Path(os.path.abspath(path))`), the relative path stored in the header,
its content bytes, and its integer-truncated modification time.  The
directory walk of `_header_path_list_from_paths` that produces this list
is a filesystem collaborator. -/
structure PackEntry where
  srcPath : List Nat
  path : List Nat
  content : List Nat
  mtime : Nat
deriving DecidableEq

/-- Header construction for every flattened entry, in order —
`FileHeader.from_file(path, ...)` per entry, with `st_size` the content
length. -/
def entriesHeaders (es : List PackEntry) : Except CupError (List FileHeader) :=
  es.mapM fun e => FileHeader.from_file e.path e.mtime e.content.length

/-- Offset-assignment walk of `_header_path_list_from_paths`
(src/cup/archiver.py, lines 171–173): assign the running offset to each
header, then advance it by that header's stored `file_size`. -/
def assignLoop (ofs : Nat) : List FileHeader → Except CupError (List FileHeader)
  | [] => .ok []
  | h :: t => do
    let h' ← h.set_file_offset ofs
    let t' ← assignLoop (ofs + h'.file_size) t
    pure (h' :: t')

/-- Offset assignment (src/cup/archiver.py, lines 169–174): the walk
starts at `len(FILE_SIGNATURE) + sum(header_size)`. -/
def assignOffsets (hs : List FileHeader) : Except CupError (List FileHeader) :=
  assignLoop (FILE_SIGNATURE.length + totalHeaderSize hs) hs

/-- Function `pack` (src/cup/archiver.py, lines 26–54): build the headers
and offsets for the flattened inputs, raise `ArchiveAlreadyExistsError`
when the archive's resolved path is among the flattened source paths —
this check precedes opening the output file, so on that error nothing is
written — then emit signature, header block and the concatenated file
contents. -/
def pack (archiveName : List Nat) (es : List PackEntry) : Except CupError (List Nat) := do
  let hs ← entriesHeaders es
  let hs' ← assignOffsets hs
  if archiveName ∈ es.map PackEntry.srcPath then
    .error .archiveAlreadyExists
  else
    .ok (FILE_SIGNATURE ++ ((hs'.map FileHeader.header_array).flatten ++
      (es.map PackEntry.content).flatten))

/-- Extraction loop of `unpack` with a host write oracle: `writeOk`
says whether the host filesystem accepts creating and writing a given
destination path (`_create_file_path` / `_unpack_file` succeed); a
rejected write raises and aborts the remaining extraction. -/
def extractAll (writeOk : List Nat → Bool) (archive : List Nat) :
    List FileHeader → Except CupError (List (List Nat × List Nat))
  | [] => .ok []
  | fh :: t =>
    if writeOk fh.file_path then
      match extractAll writeOk archive t with
      | .ok ws => .ok (_unpack_file archive fh :: ws)
      | .error e => .error e
    else
      .error .extractionFailure

/-- Working-directory discipline of `unpack` (src/cup/archiver.py,
lines 89–107), returning the result together with the process working
directory when control leaves the function.  The source saves
`os.getcwd()`, later calls `os.chdir(destination_path)`, runs the
extraction loop, and only after a fully successful loop calls
`os.chdir(previous_working_directory)` — there is no try/finally, so an
exception inside the loop propagates with the working directory still set
to the destination.  Errors raised before the `os.chdir(destination)`
(header listing) leave the working directory untouched.  Renamings do not
affect the discipline and are omitted here. -/
def unpackCwd (writeOk : List Nat → Bool) (archive : List Nat) (prevCwd dest : List Nat) :
    Except CupError (List (List Nat × List Nat)) × List Nat :=
  match _header_list_from_archive archive with
  | .error e => (.error e, prevCwd)
  | .ok hs =>
    match extractAll writeOk archive hs with
    | .error e => (.error e, dest)
    | .ok ws => (.ok ws, prevCwd)

/-- Python list indexing `hs[i]` for a possibly negative `int` index:
negative indices count from the end; out-of-range raises `IndexError`. -/
def pyListGet (hs : List FileHeader) (i : Int) : Except CupError FileHeader :=
  let j := if i < 0 then i + hs.length else i
  if h : 0 ≤ j ∧ j.toNat < hs.length then
    .ok (hs.get ⟨j.toNat, h.2⟩)
  else
    .error .indexError

/-- Per-entry body of `_resolve_renaming` (src/Cup.py, lines 15–20):
a `str` selector passes through; an `int` selector `k` is replaced by the
path of `file_header_list[k - 1]`, Python list indexing included. -/
def map_rename (hs : List FileHeader) : Selector × List Nat → Except CupError (List Nat × List Nat)
  | (.str s, new) => .ok (s, new)
  | (.int k, new) => do
    let fh ← pyListGet hs (k - 1)
    .ok (fh.file_path, new)

/-- Function `_resolve_renaming` (src/Cup.py, lines 13–23) before its
final dict comprehension: resolve every pair against the header list it
is given (`Cup.unpack` passes the path-sorted list). -/
def _resolve_renaming (renamings : List (Selector × List Nat)) (hs : List FileHeader) :
    Except CupError (List (List Nat × List Nat)) :=
  renamings.mapM (map_rename hs)

/-- Total encoded header size of a flattened input list: each entry costs
its 18 fixed bytes plus its relative path. -/
def entriesHeaderSize (es : List PackEntry) : Nat :=
  (es.map fun e => 18 + e.path.length).sum

/-- Total content size of a flattened input list. -/
def entriesContentSize (es : List PackEntry) : Nat :=
  (es.map fun e => e.content.length).sum

/-- Closed form of the headers `pack` ends up writing: canonical headers
whose offsets start at `ofs` and advance by each entry's content size. -/
def packedHeaders (ofs : Nat) : List PackEntry → List FileHeader
  | [] => []
  | e :: t => mkH ofs e.mtime e.content.length e.path ::
      packedHeaders (ofs + e.content.length) t

/-- Demo input entry: source `/a`, relative path `b`, two content bytes,
mtime 5. -/
def demoE1 : PackEntry := ⟨[47, 97], [98], [1, 2], 5⟩

/-- Demo input entry: source `/c`, relative path `a`, one content byte,
mtime 7. -/
def demoE2 : PackEntry := ⟨[47, 99], [97], [3], 7⟩

/-- Demo flattened input, deliberately not sorted by relative path. -/
def demoEntries : List PackEntry := [demoE1, demoE2]

/-- The archive `pack [120] demoEntries` produces: signature, a 19-byte
header per entry (offsets 49 and 51), then the contents. -/
def demoArchive : List Nat :=
  FILE_SIGNATURE ++
    (natToBytes 8 49 ++ natToBytes 4 5 ++ natToBytes 4 2 ++ natToBytes 2 1 ++ [98]) ++
    (natToBytes 8 51 ++ natToBytes 4 7 ++ natToBytes 4 1 ++ natToBytes 2 1 ++ [97]) ++
    [1, 2] ++ [3]

/-- A corrupt archive: one consistent 23-byte header whose stored offset
(the sentinel, 41) falls strictly inside the following 18-byte stretch of
zero padding, so the scan's second step advances the cursor from 34 past
the sentinel to 52. -/
def corruptArchive : List Nat :=
  FILE_SIGNATURE ++
    (natToBytes 8 41 ++ natToBytes 4 0 ++ natToBytes 4 0 ++ natToBytes 2 5 ++
      [97, 97, 97, 97, 97]) ++
    List.replicate 30 0

/-- Encoding a value on `w` bytes yields exactly `w` bytes. -/
theorem length_natToBytes (w : Nat) : ∀ n, (natToBytes w n).length = w := by
  induction w with
  | zero => intro n; rfl
  | succ w ih => intro n; simp [natToBytes, ih]

/-- Little-endian round trip: decoding the `w`-byte encoding of a value
that fits recovers the value. -/
theorem bytesToNat_natToBytes (w : Nat) : ∀ n, n < 256 ^ w → bytesToNat (natToBytes w n) = n := by
  induction w with
  | zero =>
    intro n h
    simp [Nat.pow_zero] at h
    simp [natToBytes, bytesToNat, h]
  | succ w ih =>
    intro n h
    have hdiv : n / 256 < 256 ^ w := by
      rw [Nat.div_lt_iff_lt_mul (by norm_num)]
      calc n < 256 ^ (w + 1) := h
        _ = 256 ^ w * 256 := by rw [Nat.pow_succ]
    simp only [natToBytes, bytesToNat]
    rw [ih (n / 256) hdiv]
    omega

/-- Zero encodes as zero bytes. -/
theorem natToBytes_zero (w : Nat) : natToBytes w 0 = List.replicate w 0 := by
  induction w with
  | zero => rfl
  | succ w ih => simp [natToBytes, ih, List.replicate_succ]

/-- Reading a slice that covers exactly the middle block of a
concatenation returns that block. -/
theorem slice_append_exact (pre mid post : List Nat) :
    slice (pre ++ (mid ++ post)) pre.length (pre.length + mid.length) = mid := by
  unfold slice
  rw [Nat.add_sub_cancel_left, List.drop_left, List.take_left]

/-- Position-flexible version of `slice_append_exact`. -/
theorem slice_append_exact' (pre mid post : List Nat) (a b : Nat)
    (ha : a = pre.length) (hb : b = a + mid.length) :
    slice (pre ++ (mid ++ post)) a b = mid := by
  subst ha; subst hb; exact slice_append_exact pre mid post

/-- Backing array of the canonical header. -/
theorem mkH_header_array (ofs t s : Nat) (p : List Nat) :
    (mkH ofs t s p).header_array =
      natToBytes 8 ofs ++ (natToBytes 4 t ++ (natToBytes 4 s ++
        (natToBytes 2 p.length ++ p))) := by
  simp [mkH, List.append_assoc]

/-- Canonical headers have the announced size. -/
theorem mkH_header_size (ofs t s : Nat) (p : List Nat) :
    (mkH ofs t s p).header_size = 18 + p.length := by
  simp [FileHeader.header_size, mkH_header_array, length_natToBytes]
  omega

/-- Offset getter on a canonical header. -/
theorem mkH_file_offset (ofs t s : Nat) (p : List Nat) (h : ofs < 256 ^ 8) :
    (mkH ofs t s p).file_offset = ofs := by
  unfold FileHeader.file_offset slice
  rw [mkH_header_array]
  simp only [List.drop_zero, Nat.sub_zero]
  rw [List.take_left' (length_natToBytes 8 ofs)]
  exact bytesToNat_natToBytes 8 ofs h

/-- Timestamp getter on a canonical header. -/
theorem mkH_file_timestamp (ofs t s : Nat) (p : List Nat) (h : t < 256 ^ 4) :
    (mkH ofs t s p).file_timestamp = t := by
  unfold FileHeader.file_timestamp
  rw [mkH_header_array]
  rw [slice_append_exact' (natToBytes 8 ofs) (natToBytes 4 t) _ 8 12
    (by simp [length_natToBytes]) (by simp [length_natToBytes])]
  exact bytesToNat_natToBytes 4 t h

/-- Size getter on a canonical header. -/
theorem mkH_file_size (ofs t s : Nat) (p : List Nat) (h : s < 256 ^ 4) :
    (mkH ofs t s p).file_size = s := by
  unfold FileHeader.file_size
  have harr : (mkH ofs t s p).header_array =
      (natToBytes 8 ofs ++ natToBytes 4 t) ++ (natToBytes 4 s ++
        (natToBytes 2 p.length ++ p)) := by
    simp [mkH, List.append_assoc]
  rw [harr]
  rw [slice_append_exact' (natToBytes 8 ofs ++ natToBytes 4 t) (natToBytes 4 s) _ 12 16
    (by simp [length_natToBytes]) (by simp [length_natToBytes])]
  exact bytesToNat_natToBytes 4 s h

/-- Path-length getter on a canonical header. -/
theorem mkH_file_path_length (ofs t s : Nat) (p : List Nat) (h : p.length < 256 ^ 2) :
    (mkH ofs t s p).file_path_length = p.length := by
  unfold FileHeader.file_path_length
  have harr : (mkH ofs t s p).header_array =
      (natToBytes 8 ofs ++ natToBytes 4 t ++ natToBytes 4 s) ++
        (natToBytes 2 p.length ++ p) := by
    simp [mkH, List.append_assoc]
  rw [harr]
  rw [slice_append_exact' (natToBytes 8 ofs ++ natToBytes 4 t ++ natToBytes 4 s)
    (natToBytes 2 p.length) _ 16 18
    (by simp [length_natToBytes]) (by simp [length_natToBytes])]
  exact bytesToNat_natToBytes 2 p.length h

/-- Path getter on a canonical header. -/
theorem mkH_file_path (ofs t s : Nat) (p : List Nat) (h : p.length < 256 ^ 2) :
    (mkH ofs t s p).file_path = p := by
  unfold FileHeader.file_path
  rw [mkH_file_path_length ofs t s p h]
  have harr : (mkH ofs t s p).header_array =
      (natToBytes 8 ofs ++ natToBytes 4 t ++ natToBytes 4 s ++ natToBytes 2 p.length) ++
        (p ++ []) := by
    simp [mkH, List.append_assoc]
  rw [harr]
  exact slice_append_exact' _ p [] 18 (18 + p.length)
    (by simp [length_natToBytes]) rfl

/-- Canonical headers are consistent. -/
theorem mkH_consistent (ofs t s : Nat) (p : List Nat) (h : p.length < 256 ^ 2) :
    (mkH ofs t s p).consistent := by
  unfold FileHeader.consistent
  rw [mkH_file_path_length ofs t s p h]
  simp [mkH_header_array, length_natToBytes]
  omega

/-- Decoding at the start of a consistent header's bytes inside a larger
archive recovers exactly that header: the peeked path length is the
header's own, and the `18 + path_length` bytes read are its array. -/
theorem from_archive_append (pre post : List Nat) (h : FileHeader) (hc : h.consistent) :
    FileHeader.from_archive (pre ++ (h.header_array ++ post)) pre.length = h := by
  have hlen : h.header_array.length = 18 + h.file_path_length := hc
  have hplen : bytesToNat (slice (pre ++ (h.header_array ++ post))
      (pre.length + 16) (pre.length + 18)) = h.file_path_length := by
    unfold slice
    have hd : (pre ++ (h.header_array ++ post)).drop (pre.length + 16) =
        (h.header_array.drop 16) ++ post := by
      rw [← List.drop_drop, List.drop_left,
        List.drop_append_of_le_length (by omega)]
    rw [hd]
    have hsub : pre.length + 18 - (pre.length + 16) = 2 := by omega
    rw [hsub, List.take_append_of_le_length (by simp; omega)]
    rfl
  unfold FileHeader.from_archive
  simp only [hplen]
  have harr : slice (pre ++ (h.header_array ++ post)) pre.length
      (pre.length + (18 + h.file_path_length)) = h.header_array := by
    unfold slice
    rw [Nat.add_sub_cancel_left, List.drop_left, List.take_append_of_le_length (by omega)]
    rw [← hlen, List.take_length]
  rw [harr]

/-- Header block length equals the sum of the header sizes. -/
theorem length_headerBytes (hs : List FileHeader) :
    (headerBytes hs).length = totalHeaderSize hs := by
  unfold headerBytes totalHeaderSize
  rw [List.length_flatten, List.map_map]
  rfl

/-- Completeness of the sentinel scan loop: launched at the start of the
byte image of a consistent header list whose end is the sentinel, with
enough fuel, the loop decodes exactly those headers, advancing after each
one by that header's own `header_size`, and halts with the cursor exactly
at the sentinel. -/
theorem scanLoop_complete (archive tail : List Nat) :
    ∀ (hs : List FileHeader) (pre : List Nat) (fuel : Nat),
      archive = pre ++ (headerBytes hs ++ tail) →
      (∀ h ∈ hs, h.consistent) →
      hs.length < fuel →
      scanLoop archive (pre.length + totalHeaderSize hs) fuel pre.length =
        some (hs, pre.length + totalHeaderSize hs) := by
  intro hs
  induction hs with
  | nil =>
    intro pre fuel _ _ hfuel
    match fuel, hfuel with
    | fuel + 1, _ =>
      unfold scanLoop
      simp [totalHeaderSize]
  | cons h t ih =>
    intro pre fuel harch hcons hfuel
    match fuel, hfuel with
    | fuel + 1, hfuel =>
      have hhc : h.consistent := hcons h (by simp)
      have hpos : h.header_size = 18 + h.file_path_length := hhc
      have hlt : pre.length < pre.length + totalHeaderSize (h :: t) := by
        have : totalHeaderSize (h :: t) = h.header_size + totalHeaderSize t := by
          simp [totalHeaderSize]
        omega
      have hdec : FileHeader.from_archive archive pre.length = h := by
        have : archive = pre ++ (h.header_array ++ (headerBytes t ++ tail)) := by
          rw [harch]
          simp [headerBytes, List.append_assoc]
        rw [this]
        exact from_archive_append pre (headerBytes t ++ tail) h hhc
      unfold scanLoop
      rw [if_pos hlt]
      simp only [hdec]
      have harch' : archive = (pre ++ h.header_array) ++ (headerBytes t ++ tail) := by
        rw [harch]
        simp [headerBytes, List.append_assoc]
      have hrec := ih (pre ++ h.header_array) fuel harch'
        (fun x hx => hcons x (by simp [hx])) (by simpa using Nat.lt_of_succ_lt_succ hfuel)
      have hlenpre : (pre ++ h.header_array).length = pre.length + h.header_size := by
        simp [FileHeader.header_size]
      rw [hlenpre] at hrec
      have htot : pre.length + totalHeaderSize (h :: t) =
          pre.length + h.header_size + totalHeaderSize t := by
        simp [totalHeaderSize]
        omega
      rw [htot]
      rw [hrec]

/-- Consistent headers occupy at least their 18 fixed bytes, so a header
list never outnumbers its total byte size. -/
theorem length_le_totalHeaderSize (hs : List FileHeader)
    (hcons : ∀ h ∈ hs, h.consistent) : hs.length ≤ totalHeaderSize hs := by
  unfold totalHeaderSize
  have : hs.length = (hs.map FileHeader.header_size).length := by simp
  rw [this]
  apply List.length_le_sum_of_one_le
  intro i hi
  rcases List.mem_map.mp hi with ⟨h, hmem, hrfl⟩
  have := hcons h hmem
  unfold FileHeader.consistent at this
  unfold FileHeader.header_size at hrfl
  omega

/-- Full header listing of a well-formed archive: the signature matches,
the first header decodes, the scan loop returns the remaining headers with
the cursor stopped exactly at the sentinel, and the function returns all
packed headers sorted by path. -/
theorem headerList_wellformed (h1 : FileHeader) (hs : List FileHeader) (content : List Nat)
    (hcons : ∀ h ∈ h1 :: hs, h.consistent)
    (hsent : h1.file_offset = FILE_SIGNATURE.length + totalHeaderSize (h1 :: hs)) :
    scanLoop (mkArchive (h1 :: hs) content) h1.file_offset (h1.file_offset + 1)
        (FILE_SIGNATURE.length + h1.header_size) = some (hs, h1.file_offset)
    ∧ _header_list_from_archive (mkArchive (h1 :: hs) content) =
        .ok (sortHeaders (h1 :: hs)) := by
  have harch : mkArchive (h1 :: hs) content =
      (FILE_SIGNATURE ++ h1.header_array) ++ (headerBytes hs ++ content) := by
    simp [mkArchive, headerBytes, List.append_assoc]
  have hlenpre : (FILE_SIGNATURE ++ h1.header_array).length =
      FILE_SIGNATURE.length + h1.header_size := by
    simp [FileHeader.header_size]
  have hsent' : h1.file_offset =
      (FILE_SIGNATURE ++ h1.header_array).length + totalHeaderSize hs := by
    rw [hlenpre, hsent]
    simp [totalHeaderSize]
    omega
  have hfuel : hs.length < h1.file_offset + 1 := by
    have h1le : hs.length ≤ totalHeaderSize hs :=
      length_le_totalHeaderSize hs (fun h hm => hcons h (by simp [hm]))
    omega
  have hscan : scanLoop (mkArchive (h1 :: hs) content) h1.file_offset (h1.file_offset + 1)
      (FILE_SIGNATURE.length + h1.header_size) = some (hs, h1.file_offset) := by
    have hoff : h1.file_offset =
        FILE_SIGNATURE.length + h1.header_size + totalHeaderSize hs := by
      rw [hsent]
      simp [totalHeaderSize]
      omega
    have := scanLoop_complete (mkArchive (h1 :: hs) content) content hs
      (FILE_SIGNATURE ++ h1.header_array) (h1.file_offset + 1) harch
      (fun h hm => hcons h (by simp [hm])) hfuel
    rw [hlenpre] at this
    rw [← hoff] at this
    exact this
  refine ⟨hscan, ?_⟩
  unfold _header_list_from_archive
  have hsig : slice (mkArchive (h1 :: hs) content) 0 FILE_SIGNATURE.length =
      FILE_SIGNATURE := by
    unfold mkArchive slice
    simp only [List.drop_zero, Nat.sub_zero]
    exact List.take_left' rfl
  rw [if_pos hsig]
  have hdec : FileHeader.from_archive (mkArchive (h1 :: hs) content)
      FILE_SIGNATURE.length = h1 := by
    have harch2 : mkArchive (h1 :: hs) content =
        FILE_SIGNATURE ++ (h1.header_array ++ (headerBytes hs ++ content)) := by
      simp [mkArchive, headerBytes, List.append_assoc]
    rw [harch2]
    exact from_archive_append FILE_SIGNATURE (headerBytes hs ++ content) h1
      (hcons h1 (by simp))
  simp only [hdec]
  rw [hscan]

/-- Writing a slice that covers exactly the middle block of a
concatenation replaces that block. -/
theorem setSlice_append (x m y v : List Nat) :
    setSlice (x ++ (m ++ y)) x.length (x.length + m.length) v = x ++ (v ++ y) := by
  unfold setSlice
  rw [List.take_left]
  have hd : (x ++ (m ++ y)).drop (x.length + m.length) = y := by
    rw [← List.drop_drop, List.drop_left, List.drop_left]
  rw [hd, List.append_assoc]

/-- Position-flexible version of `setSlice_append`. -/
theorem setSlice_append' (x m y v : List Nat) (a b : Nat)
    (ha : a = x.length) (hb : b = a + m.length) :
    setSlice (x ++ (m ++ y)) a b v = x ++ (v ++ y) := by
  subst ha; subst hb; exact setSlice_append x m y v

/-- The offset setter, when the value fits eight bytes, overwrites exactly
the first eight bytes of the backing array. -/
theorem set_file_offset_eq (fh : FileHeader) (ofs : Nat) (h : ofs < 256 ^ 8) :
    fh.set_file_offset ofs = .ok ⟨natToBytes 8 ofs ++ fh.header_array.drop 8⟩ := by
  unfold FileHeader.set_file_offset natToBytesE
  rw [if_pos h]
  rfl

/-- Offset getter after the offset setter: the stored value round-trips. -/
theorem file_offset_ofBytes (ofs : Nat) (rest : List Nat) (h : ofs < 256 ^ 8) :
    FileHeader.file_offset ⟨natToBytes 8 ofs ++ rest⟩ = ofs := by
  unfold FileHeader.file_offset slice
  simp only [List.drop_zero, Nat.sub_zero]
  rw [List.take_left' (length_natToBytes 8 ofs)]
  exact bytesToNat_natToBytes 8 ofs h

/-- Setting the offset never changes the stored content size: the size
field lives entirely beyond the rewritten first eight bytes. -/
theorem file_size_after_set_offset (fh : FileHeader) (ofs : Nat) :
    FileHeader.file_size ⟨natToBytes 8 ofs ++ fh.header_array.drop 8⟩ = fh.file_size := by
  unfold FileHeader.file_size slice
  have h1 : (natToBytes 8 ofs ++ fh.header_array.drop 8).drop 12 =
      fh.header_array.drop 12 := by
    have h2 : (natToBytes 8 ofs ++ fh.header_array.drop 8).drop 12 =
        (natToBytes 8 ofs ++ fh.header_array.drop 8).drop ((natToBytes 8 ofs).length + 4) := by
      rw [length_natToBytes]
    rw [h2, List.drop_append, List.drop_drop]
  rw [h1]

/-- Specification of the offset-assignment walk: it succeeds whenever the
final offset fits eight bytes, keeps the list length, stamps the running
offset into the first header, produces the contiguity chain
`next.offset = prev.offset + prev.size`, and assigns no offset below the
starting one. -/
theorem assignLoop_spec : ∀ (hs : List FileHeader) (ofs : Nat),
    ofs + totalFileSize hs < 256 ^ 8 →
    ∃ hs', assignLoop ofs hs = .ok hs' ∧ hs'.length = hs.length ∧
      (∀ y ∈ hs'.head?, y.file_offset = ofs) ∧
      List.Chain' (fun a b => b.file_offset = a.file_offset + a.file_size) hs' ∧
      (∀ h' ∈ hs', ofs ≤ h'.file_offset) := by
  intro hs
  induction hs with
  | nil =>
    intro ofs _
    exact ⟨[], rfl, rfl, by simp, by simp, by simp⟩
  | cons h t ih =>
    intro ofs hfit
    have hofs : ofs < 256 ^ 8 := by
      have : totalFileSize (h :: t) = h.file_size + totalFileSize t := by
        simp [totalFileSize]
      omega
    have hset := set_file_offset_eq h ofs hofs
    set h' : FileHeader := ⟨natToBytes 8 ofs ++ h.header_array.drop 8⟩ with hh'
    have hsz : h'.file_size = h.file_size := file_size_after_set_offset h ofs
    have hfit' : (ofs + h'.file_size) + totalFileSize t < 256 ^ 8 := by
      rw [hsz]
      have : totalFileSize (h :: t) = h.file_size + totalFileSize t := by
        simp [totalFileSize]
      omega
    rcases ih (ofs + h'.file_size) hfit' with ⟨t', ht', hlen, hhead, hchain, hmin⟩
    refine ⟨h' :: t', ?_, by simp [hlen], ?_, ?_, ?_⟩
    · unfold assignLoop
      rw [hset]
      show (assignLoop (ofs + h'.file_size) t).bind _ = _
      rw [ht']
      rfl
    · intro y hy
      simp at hy
      rw [← hy, hh']
      exact file_offset_ofBytes ofs _ hofs
    · rw [List.chain'_cons']
      refine ⟨?_, hchain⟩
      intro y hy
      rw [hhead y hy, hh']
      rw [file_offset_ofBytes ofs _ hofs]
    · intro x hx
      rcases List.mem_cons.mp hx with hx | hx
      · rw [hx, hh', file_offset_ofBytes ofs _ hofs]
      · exact le_trans (Nat.le_add_right ofs h'.file_size) (hmin x hx)

/-- Encoding a file with in-range timestamp, size and path length
produces exactly the canonical zero-offset header. -/
theorem from_file_eq (path : List Nat) (t s : Nat)
    (ht : t < 256 ^ 4) (hs : s < 256 ^ 4) (hp : path.length < 256 ^ 2) :
    FileHeader.from_file path t s = .ok (mkH 0 t s path) := by
  unfold FileHeader.from_file natToBytesE
  rw [if_pos ht, if_pos hs, if_pos hp]
  have step0 : List.replicate (18 + path.length) 0 =
      List.replicate 8 (0 : Nat) ++
        (List.replicate 4 0 ++ List.replicate (6 + path.length) 0) := by
    have harith : 18 + path.length = 8 + (4 + (6 + path.length)) := by omega
    rw [harith, List.replicate_add, List.replicate_add]
  have step1 : setSlice (List.replicate (18 + path.length) 0) 8 12 (natToBytes 4 t) =
      List.replicate 8 (0 : Nat) ++ (natToBytes 4 t ++ List.replicate (6 + path.length) 0) := by
    rw [step0]
    exact setSlice_append' _ _ _ _ 8 12 (by simp) (by simp)
  have re1 : List.replicate 8 (0 : Nat) ++ (natToBytes 4 t ++ List.replicate (6 + path.length) 0) =
      (List.replicate 8 (0 : Nat) ++ natToBytes 4 t) ++
        (List.replicate 4 0 ++ List.replicate (2 + path.length) 0) := by
    have harith : 6 + path.length = 4 + (2 + path.length) := by omega
    rw [harith, List.replicate_add]
    simp [List.append_assoc]
  have step2 : setSlice (List.replicate 8 (0 : Nat) ++
        (natToBytes 4 t ++ List.replicate (6 + path.length) 0)) 12 16 (natToBytes 4 s) =
      (List.replicate 8 (0 : Nat) ++ natToBytes 4 t) ++
        (natToBytes 4 s ++ List.replicate (2 + path.length) 0) := by
    rw [re1]
    exact setSlice_append' _ _ _ _ 12 16 (by simp [length_natToBytes]) (by simp)
  have re2 : (List.replicate 8 (0 : Nat) ++ natToBytes 4 t) ++
        (natToBytes 4 s ++ List.replicate (2 + path.length) 0) =
      ((List.replicate 8 (0 : Nat) ++ natToBytes 4 t) ++ natToBytes 4 s) ++
        (List.replicate 2 0 ++ List.replicate path.length 0) := by
    rw [List.replicate_add]
    simp [List.append_assoc]
  have step3 : setSlice ((List.replicate 8 (0 : Nat) ++ natToBytes 4 t) ++
        (natToBytes 4 s ++ List.replicate (2 + path.length) 0)) 16 18
        (natToBytes 2 path.length) =
      ((List.replicate 8 (0 : Nat) ++ natToBytes 4 t) ++ natToBytes 4 s) ++
        (natToBytes 2 path.length ++ List.replicate path.length 0) := by
    rw [re2]
    exact setSlice_append' _ _ _ _ 16 18 (by simp [length_natToBytes]) (by simp)
  have re3 : ((List.replicate 8 (0 : Nat) ++ natToBytes 4 t) ++ natToBytes 4 s) ++
        (natToBytes 2 path.length ++ List.replicate path.length 0) =
      (((List.replicate 8 (0 : Nat) ++ natToBytes 4 t) ++ natToBytes 4 s) ++
        natToBytes 2 path.length) ++ (List.replicate path.length 0 ++ []) := by
    simp [List.append_assoc]
  have step4 : setSlice (((List.replicate 8 (0 : Nat) ++ natToBytes 4 t) ++ natToBytes 4 s) ++
        (natToBytes 2 path.length ++ List.replicate path.length 0)) 18 (18 + path.length)
        path =
      (((List.replicate 8 (0 : Nat) ++ natToBytes 4 t) ++ natToBytes 4 s) ++
        natToBytes 2 path.length) ++ (path ++ []) := by
    rw [re3]
    exact setSlice_append' _ _ _ _ 18 (18 + path.length)
      (by simp [length_natToBytes]) (by simp)
  show Except.ok (FileHeader.mk _) = _
  rw [step1, step2, step3, step4]
  unfold mkH
  rw [natToBytes_zero]
  simp [List.append_assoc]

/-- Bind of a successful `Except` computation reduces to its continuation. -/
theorem bind_ok_cup {α β : Type} (a : α) (f : α → Except CupError β) :
    ((Except.ok a : Except CupError α) >>= f) = f a := rfl

/-- Assigning an in-range offset to a canonical zero-offset header yields
the canonical header with that offset. -/
theorem set_file_offset_mkH (t s ofs : Nat) (p : List Nat) (h : ofs < 256 ^ 8) :
    (mkH 0 t s p).set_file_offset ofs = .ok (mkH ofs t s p) := by
  rw [set_file_offset_eq _ ofs h]
  have hd : (mkH 0 t s p).header_array.drop 8 =
      natToBytes 4 t ++ (natToBytes 4 s ++ (natToBytes 2 p.length ++ p)) := by
    rw [mkH_header_array]
    exact List.drop_left' (length_natToBytes 8 0)
  rw [hd]
  simp [mkH, List.append_assoc]

/-- Header construction succeeds on a list of in-range entries and yields
the canonical zero-offset headers. -/
theorem entriesHeaders_eq (es : List PackEntry) :
    (∀ e ∈ es, e.path.length < 256 ^ 2 ∧ e.mtime < 256 ^ 4 ∧ e.content.length < 256 ^ 4) →
    entriesHeaders es = .ok (es.map fun e => mkH 0 e.mtime e.content.length e.path) := by
  unfold entriesHeaders
  induction es with
  | nil => intro _; rfl
  | cons e t ih =>
    intro hb
    rw [List.mapM_cons]
    rcases hb e (by simp) with ⟨hp, ht, hc⟩
    rw [from_file_eq e.path e.mtime e.content.length ht hc hp]
    rw [ih fun x hx => hb x (by simp [hx])]
    rfl

/-- The offsets stamped by `packedHeaders` do not change its total size. -/
theorem totalHeaderSize_packedHeaders : ∀ (es : List PackEntry) (ofs : Nat),
    totalHeaderSize (packedHeaders ofs es) = entriesHeaderSize es := by
  intro es
  induction es with
  | nil => intro ofs; rfl
  | cons e t ih =>
    intro ofs
    simp only [packedHeaders, totalHeaderSize, List.map_cons, List.sum_cons,
      entriesHeaderSize] at ih ⊢
    rw [mkH_header_size, ih (ofs + e.content.length)]

/-- Total size of the freshly encoded headers of a flattened input list. -/
theorem totalHeaderSize_map_mkH0 (es : List PackEntry) :
    totalHeaderSize (es.map fun e => mkH 0 e.mtime e.content.length e.path) =
      entriesHeaderSize es := by
  unfold totalHeaderSize entriesHeaderSize
  rw [List.map_map]
  congr 1
  apply List.map_congr_left
  intro e _
  exact mkH_header_size 0 e.mtime e.content.length e.path

/-- Total stored content size of the freshly encoded headers. -/
theorem totalFileSize_map_mkH0 (es : List PackEntry)
    (hb : ∀ e ∈ es, e.content.length < 256 ^ 4) :
    totalFileSize (es.map fun e => mkH 0 e.mtime e.content.length e.path) =
      entriesContentSize es := by
  unfold totalFileSize entriesContentSize
  rw [List.map_map]
  congr 1
  apply List.map_congr_left
  intro e he
  exact mkH_file_size 0 e.mtime e.content.length e.path (hb e he)

/-- Every header `pack` writes is consistent. -/
theorem packedHeaders_consistent : ∀ (es : List PackEntry) (ofs : Nat),
    (∀ e ∈ es, e.path.length < 256 ^ 2) →
    ∀ h ∈ packedHeaders ofs es, h.consistent := by
  intro es
  induction es with
  | nil =>
    intro ofs _ h hmem
    simp [packedHeaders] at hmem
  | cons e t ih =>
    intro ofs hb h hmem
    simp only [packedHeaders, List.mem_cons] at hmem
    rcases hmem with h1 | h2
    · rw [h1]
      exact mkH_consistent _ _ _ _ (hb e (by simp))
    · exact ih (ofs + e.content.length) (fun x hx => hb x (by simp [hx])) h h2

/-- The offset-assignment walk over freshly encoded headers produces
exactly the packed headers with running offsets. -/
theorem assignLoop_canonical : ∀ (es : List PackEntry) (ofs : Nat),
    (∀ e ∈ es, e.content.length < 256 ^ 4) →
    ofs + entriesContentSize es < 256 ^ 8 →
    assignLoop ofs (es.map fun e => mkH 0 e.mtime e.content.length e.path) =
      .ok (packedHeaders ofs es) := by
  intro es
  induction es with
  | nil => intro ofs _ _; rfl
  | cons e t ih =>
    intro ofs hb hfit
    have hsum : entriesContentSize (e :: t) = e.content.length + entriesContentSize t := by
      simp [entriesContentSize]
    have hofs : ofs < 256 ^ 8 := by omega
    simp only [List.map_cons, packedHeaders]
    unfold assignLoop
    rw [set_file_offset_mkH e.mtime e.content.length ofs e.path hofs, bind_ok_cup]
    have hsz : (mkH ofs e.mtime e.content.length e.path).file_size = e.content.length :=
      mkH_file_size _ _ _ _ (hb e (by simp))
    rw [hsz]
    rw [ih (ofs + e.content.length) (fun x hx => hb x (by simp [hx])) (by omega), bind_ok_cup]
    rfl

/-- Characterization of a successful `pack`: the output archive is the
signature, the packed headers and the concatenated contents. -/
theorem pack_eq (archiveName : List Nat) (es : List PackEntry)
    (hb : ∀ e ∈ es, e.path.length < 256 ^ 2 ∧ e.mtime < 256 ^ 4 ∧ e.content.length < 256 ^ 4)
    (hcoll : archiveName ∉ es.map PackEntry.srcPath)
    (hfit : FILE_SIGNATURE.length + entriesHeaderSize es + entriesContentSize es < 256 ^ 8) :
    pack archiveName es =
      .ok (mkArchive (packedHeaders (FILE_SIGNATURE.length + entriesHeaderSize es) es)
        (es.map PackEntry.content).flatten) := by
  unfold pack
  rw [entriesHeaders_eq es hb, bind_ok_cup]
  unfold assignOffsets
  rw [totalHeaderSize_map_mkH0]
  rw [assignLoop_canonical es _ (fun e he => (hb e he).2.2) (by omega), bind_ok_cup]
  rw [if_neg hcoll]
  rfl

/-- Extracting the packed headers out of an archive whose content block
follows `pre` gives back every entry's path and content. -/
theorem map_extract_packed (archive : List Nat) : ∀ (es : List PackEntry) (pre : List Nat),
    archive = pre ++ (es.map PackEntry.content).flatten →
    (∀ e ∈ es, e.path.length < 256 ^ 2 ∧ e.content.length < 256 ^ 4) →
    pre.length + entriesContentSize es < 256 ^ 8 →
    (packedHeaders pre.length es).map (_unpack_file archive) =
      es.map fun e => (e.path, e.content) := by
  intro es
  induction es with
  | nil => intro pre _ _ _; rfl
  | cons e t ih =>
    intro pre harch hb hfit
    have hsum : entriesContentSize (e :: t) = e.content.length + entriesContentSize t := by
      simp [entriesContentSize]
    have harch' : archive = pre ++ (e.content ++ (t.map PackEntry.content).flatten) := by
      rw [harch]
      simp
    have hofs : pre.length < 256 ^ 8 := by omega
    simp only [packedHeaders, List.map_cons]
    have hhead : _unpack_file archive (mkH pre.length e.mtime e.content.length e.path) =
        (e.path, e.content) := by
      unfold _unpack_file
      rw [mkH_file_path _ _ _ _ (hb e (by simp)).1,
        mkH_file_offset _ _ _ _ hofs,
        mkH_file_size _ _ _ _ (hb e (by simp)).2]
      rw [harch']
      rw [slice_append_exact' pre e.content _ pre.length (pre.length + e.content.length)
        rfl rfl]
    rw [hhead]
    have htail : (packedHeaders (pre.length + e.content.length) t).map (_unpack_file archive) =
        t.map fun x => (x.path, x.content) := by
      have hpre2 : archive = (pre ++ e.content) ++ (t.map PackEntry.content).flatten := by
        rw [harch']
        simp [List.append_assoc]
      have := ih (pre ++ e.content) hpre2 (fun x hx => hb x (by simp [hx]))
        (by simp only [List.length_append]; omega)
      simpa using this
    rw [htail]

/-- With no renaming pairs, `unpack` skips the filter-and-rename branch
and extracts every listed header in order. -/
theorem unpack_empty_renamings (archive : List Nat) (hs : List FileHeader)
    (h : _header_list_from_archive archive = .ok hs) :
    unpack [] archive = .ok (hs.map (_unpack_file archive)) := by
  unfold unpack
  rw [h, bind_ok_cup]
  simp
  rfl

/-- Whatever the header listing returns is sorted by path. -/
theorem headerList_sorted (archive : List Nat) (hs : List FileHeader)
    (h : _header_list_from_archive archive = .ok hs) :
    List.Sorted pathLe hs := by
  unfold _header_list_from_archive at h
  split at h
  · split at h
    · cases h
      exact List.sorted_insertionSort pathLe _
    · cases h
  · cases h

/-- Claim C1: for every well-formed archive of `N ≥ 1` consistent headers
with arbitrary path lengths — the first header storing the sentinel
`signature_length + total header-block size` — the header-block scan
decodes exactly the `N` packed headers, the loop advancing after each
decoded header by that header's own `header_size` (18 plus its path
length), and stops with the read cursor exactly at the sentinel, the
start of the content block; the listing returns all `N` of them. -/
theorem sentinel_scan_decodes_all_headers (h1 : FileHeader) (hs : List FileHeader)
    (content : List Nat) (hcons : ∀ h ∈ h1 :: hs, h.consistent)
    (hsent : h1.file_offset = FILE_SIGNATURE.length + totalHeaderSize (h1 :: hs)) :
    scanLoop (mkArchive (h1 :: hs) content) h1.file_offset (h1.file_offset + 1)
        (FILE_SIGNATURE.length + h1.header_size) = some (hs, h1.file_offset)
    ∧ _header_list_from_archive (mkArchive (h1 :: hs) content) =
        .ok (sortHeaders (h1 :: hs))
    ∧ (sortHeaders (h1 :: hs)).length = hs.length + 1 := by
  rcases headerList_wellformed h1 hs content hcons hsent with ⟨ha, hb⟩
  refine ⟨ha, hb, ?_⟩
  have hperm := (List.perm_insertionSort pathLe (h1 :: hs)).length_eq
  simpa [sortHeaders] using hperm

/-- Witness for C1: the concrete two-header demo archive. -/
theorem sentinel_scan_decodes_all_headers_witness :
    scanLoop (mkArchive [mkH 49 5 2 [98], mkH 51 7 1 [97]] [1, 2, 3])
        (mkH 49 5 2 [98]).file_offset ((mkH 49 5 2 [98]).file_offset + 1)
        (FILE_SIGNATURE.length + (mkH 49 5 2 [98]).header_size) =
      some ([mkH 51 7 1 [97]], (mkH 49 5 2 [98]).file_offset)
    ∧ _header_list_from_archive (mkArchive [mkH 49 5 2 [98], mkH 51 7 1 [97]] [1, 2, 3]) =
        .ok (sortHeaders [mkH 49 5 2 [98], mkH 51 7 1 [97]])
    ∧ (sortHeaders [mkH 49 5 2 [98], mkH 51 7 1 [97]]).length = 1 + 1 :=
  sentinel_scan_decodes_all_headers (mkH 49 5 2 [98]) [mkH 51 7 1 [97]] [1, 2, 3]
    (by decide) (by decide)

/-- Claim C2: for every non-empty header list, the offset assignment of
`pack` gives the first header
`content_offset = signature_length + sum(header_size)`, gives every
subsequent header the preceding header's offset plus the preceding
header's stored content size — a contiguous, gap-free content region —
and assigns no offset below the base, so the minimum content offset
equals `signature_length + total header-block size`. -/
theorem offset_assignment_contiguous (hs : List FileHeader) (hne : hs ≠ [])
    (hfit : FILE_SIGNATURE.length + totalHeaderSize hs + totalFileSize hs < 2 ^ 64) :
    ∃ hs', assignOffsets hs = .ok hs' ∧ hs'.length = hs.length ∧ hs' ≠ [] ∧
      (∀ y ∈ hs'.head?, y.file_offset = FILE_SIGNATURE.length + totalHeaderSize hs) ∧
      List.Chain' (fun a b => b.file_offset = a.file_offset + a.file_size) hs' ∧
      (∀ h' ∈ hs', FILE_SIGNATURE.length + totalHeaderSize hs ≤ h'.file_offset) := by
  have hpow8 : (256 : Nat) ^ 8 = 2 ^ 64 := by norm_num
  have hfit' : (FILE_SIGNATURE.length + totalHeaderSize hs) + totalFileSize hs < 256 ^ 8 := by
    omega
  rcases assignLoop_spec hs (FILE_SIGNATURE.length + totalHeaderSize hs) hfit' with
    ⟨hs', h1, h2, h3, h4, h5⟩
  refine ⟨hs', h1, h2, ?_, h3, h4, h5⟩
  intro hnil
  rw [hnil] at h2
  exact hne (List.length_eq_zero.mp h2.symm)

/-- Witness for C2: two concrete freshly encoded headers. -/
theorem offset_assignment_contiguous_witness :
    ∃ hs', assignOffsets [mkH 0 5 2 [98], mkH 0 7 1 [97]] = .ok hs' ∧
      hs'.length = [mkH 0 5 2 [98], mkH 0 7 1 [97]].length ∧ hs' ≠ [] ∧
      (∀ y ∈ hs'.head?, y.file_offset =
        FILE_SIGNATURE.length + totalHeaderSize [mkH 0 5 2 [98], mkH 0 7 1 [97]]) ∧
      List.Chain' (fun a b => b.file_offset = a.file_offset + a.file_size) hs' ∧
      (∀ h' ∈ hs',
        FILE_SIGNATURE.length + totalHeaderSize [mkH 0 5 2 [98], mkH 0 7 1 [97]] ≤
          h'.file_offset) :=
  offset_assignment_contiguous [mkH 0 5 2 [98], mkH 0 7 1 [97]] (by decide) (by decide)

/-- Claim C10: calling `unpack` with zero renaming entries skips the
filter-and-rename step and extracts every entry of the archive, one write
per listed header, in path-sorted order. -/
theorem unpack_no_renaming_extracts_all (archive : List Nat) (hs : List FileHeader)
    (h : _header_list_from_archive archive = .ok hs) :
    unpack [] archive = .ok (hs.map (_unpack_file archive)) ∧
      (hs.map (_unpack_file archive)).length = hs.length ∧
      List.Sorted pathLe hs :=
  ⟨unpack_empty_renamings archive hs h, by simp, headerList_sorted archive hs h⟩

/-- Witness for C10: the demo archive, whose two entries are both written. -/
theorem unpack_no_renaming_extracts_all_witness :
    unpack [] demoArchive =
        .ok ([mkH 51 7 1 [97], mkH 49 5 2 [98]].map (_unpack_file demoArchive)) ∧
      ([mkH 51 7 1 [97], mkH 49 5 2 [98]].map (_unpack_file demoArchive)).length =
        [mkH 51 7 1 [97], mkH 49 5 2 [98]].length ∧
      List.Sorted pathLe [mkH 51 7 1 [97], mkH 49 5 2 [98]] :=
  unpack_no_renaming_extracts_all demoArchive [mkH 51 7 1 [97], mkH 49 5 2 [98]] (by rfl)

/-- Counterexample to C5: on the demo archive `info` labels the first
sorted entry with index 0, not 1 — Python's `enumerate` starts at 0 and
the source adds nothing to it. -/
theorem info_index_counterexample :
    info demoArchive = .ok [(0, 1, 7, [97]), (1, 2, 5, [98])] ∧
      ¬ ∀ l, info demoArchive = .ok l → l.head?.map Prod.fst = some 1 := by
  refine ⟨by rfl, ?_⟩
  intro hcl
  have hx := hcl [(0, 1, 7, [97]), (1, 2, 5, [98])] (by rfl)
  simp at hx

/-- Claim C5 as amended: `info` returns one `(index, size, modified_time,
path)` tuple per archived file, sorted ascending by path regardless of
pack-time order, with the index field 0-based — the first sorted entry
has index 0 — and it reads the archive without modifying it (all reading
here is pure slicing of the archive bytes). -/
theorem info_zero_based_sorted (archive : List Nat) (hs : List FileHeader)
    (h : _header_list_from_archive archive = .ok hs) :
    ∃ l, info archive = .ok l ∧ l.length = hs.length ∧
      (∀ (i : Nat) (fh : FileHeader), hs[i]? = some fh →
        l[i]? = some (i, fh.file_size, fh.file_timestamp, fh.file_path)) ∧
      List.Sorted pathLe hs := by
  refine ⟨hs.enum.map fun p => (p.1, p.2.file_size, p.2.file_timestamp, p.2.file_path),
    ?_, by simp, ?_, headerList_sorted archive hs h⟩
  · unfold info
    rw [h, bind_ok_cup]
    rfl
  · intro i fh hfh
    rcases List.getElem?_eq_some.mp hfh with ⟨hi, hget⟩
    rw [List.getElem?_map]
    have henum : hs.enum[i]? = some (i, fh) := by
      rw [List.getElem?_eq_some]
      refine ⟨by simp [hi], ?_⟩
      rw [List.getElem_enum, hget]
    rw [henum]
    rfl

/-- Witness for C5: the demo archive's two entries, indices 0 and 1. -/
theorem info_zero_based_sorted_witness :
    ∃ l, info demoArchive = .ok l ∧
      l.length = [mkH 51 7 1 [97], mkH 49 5 2 [98]].length ∧
      (∀ (i : Nat) (fh : FileHeader), [mkH 51 7 1 [97], mkH 49 5 2 [98]][i]? = some fh →
        l[i]? = some (i, fh.file_size, fh.file_timestamp, fh.file_path)) ∧
      List.Sorted pathLe [mkH 51 7 1 [97], mkH 49 5 2 [98]] :=
  info_zero_based_sorted demoArchive [mkH 51 7 1 [97], mkH 49 5 2 [98]] (by rfl)

/-- Counterexample to C6: on `corruptArchive` the second advance moves
the cursor from 34 past the sentinel 41 to 52, yet the scan terminates
and the listing returns successfully with the headers decoded so far —
no `CorruptHeaderBlockError` (the source raises nothing there). -/
theorem scan_overshoot_counterexample :
    scanLoop corruptArchive 41 42 34 = some ([FileHeader.mk (List.replicate 18 0)], 52) ∧
      41 < 52 ∧
      _header_list_from_archive corruptArchive =
        .ok [FileHeader.mk (List.replicate 18 0),
          FileHeader.mk (natToBytes 8 41 ++ natToBytes 4 0 ++ natToBytes 4 0 ++
            natToBytes 2 5 ++ [97, 97, 97, 97, 97])] :=
  ⟨by rfl, by omega, by rfl⟩

/-- Claim C6 as amended: when advancing the cursor by a decoded header's
`header_size` makes the cursor exceed the sentinel, the loop condition
fails and the scan terminates at once — it does not loop forever, but it
raises no error either: it silently returns the headers decoded so far
with the overshot cursor (the source defines no
`CorruptHeaderBlockError`). -/
theorem scan_overshoot_returns_silently (archive : List Nat) (sentinel pos fuel : Nat)
    (hbelow : pos < sentinel)
    (hover : sentinel < pos + (FileHeader.from_archive archive pos).header_size) :
    scanLoop archive sentinel (fuel + 2) pos =
      some ([FileHeader.from_archive archive pos],
        pos + (FileHeader.from_archive archive pos).header_size) := by
  have hstep : scanLoop archive sentinel (fuel + 1)
      (pos + (FileHeader.from_archive archive pos).header_size) =
      some ([], pos + (FileHeader.from_archive archive pos).header_size) := by
    unfold scanLoop
    rw [if_neg (by omega)]
  unfold scanLoop
  rw [if_pos hbelow]
  show (match scanLoop archive sentinel (fuel + 1)
      (pos + (FileHeader.from_archive archive pos).header_size) with
    | some (rest, fin) => some (FileHeader.from_archive archive pos :: rest, fin)
    | none => none) = _
  rw [hstep]

/-- Witness for C6's amended statement at the corrupt demo archive. -/
theorem scan_overshoot_returns_silently_witness :
    scanLoop corruptArchive 41 (40 + 2) 34 =
      some ([FileHeader.from_archive corruptArchive 34],
        34 + (FileHeader.from_archive corruptArchive 34).header_size) :=
  scan_overshoot_returns_silently corruptArchive 41 34 40 (by decide) (by decide)

/-- Claim C7: when the archive name's resolved absolute path is among the
resolved flattened input paths, `pack` fails with
`ArchiveAlreadyExistsError`; the check runs before the output file is
opened, so the error result carries no archive bytes — nothing is
written. -/
theorem pack_collision_error (archiveName : List Nat) (es : List PackEntry)
    (hmem : archiveName ∈ es.map PackEntry.srcPath)
    (hb : ∀ e ∈ es, e.path.length < 2 ^ 16 ∧ e.mtime < 2 ^ 32 ∧ e.content.length < 2 ^ 32)
    (hfit : FILE_SIGNATURE.length + entriesHeaderSize es + entriesContentSize es < 2 ^ 64) :
    pack archiveName es = .error .archiveAlreadyExists := by
  have hpow2 : (256 : Nat) ^ 2 = 2 ^ 16 := by norm_num
  have hpow4 : (256 : Nat) ^ 4 = 2 ^ 32 := by norm_num
  have hpow8 : (256 : Nat) ^ 8 = 2 ^ 64 := by norm_num
  have hb' : ∀ e ∈ es,
      e.path.length < 256 ^ 2 ∧ e.mtime < 256 ^ 4 ∧ e.content.length < 256 ^ 4 := by
    intro e he
    rcases hb e he with ⟨x, y, z⟩
    exact ⟨by omega, by omega, by omega⟩
  unfold pack
  rw [entriesHeaders_eq es hb', bind_ok_cup]
  unfold assignOffsets
  rw [totalHeaderSize_map_mkH0]
  rw [assignLoop_canonical es _ (fun e he => (hb' e he).2.2) (by omega), bind_ok_cup]
  rw [if_pos hmem]

/-- Witness for C7: packing the demo entries into an archive named like
the first entry's source path. -/
theorem pack_collision_error_witness :
    pack [47, 97] demoEntries = .error .archiveAlreadyExists :=
  pack_collision_error [47, 97] demoEntries (by decide) (by decide) (by decide)

/-- Counterexample to C8: with a host that rejects the first write, the
demo unpack exits through the extraction failure with the working
directory still set to the destination `[100]`, not restored to the
previous `[112]`. -/
theorem unpack_cwd_not_restored_counterexample :
    (unpackCwd (fun _ => false) demoArchive [112] [100]).2 = [100] ∧
      (unpackCwd (fun _ => false) demoArchive [112] [100]).1 =
        .error .extractionFailure ∧
      ([100] : List Nat) ≠ [112] :=
  ⟨by rfl, by rfl, by decide⟩

/-- Claim C8 as amended: `unpack` restores the working directory when it
returns normally, and leaves it untouched when header listing fails
before the directory switch; but when extraction of some file fails
partway through, the function exits with the working directory still set
to the destination — the source has no try/finally, so the restoring
`chdir` is skipped on that exit path. -/
theorem unpack_cwd_semantics (writeOk : List Nat → Bool)
    (archive prevCwd dest : List Nat) :
    (∀ ws, (unpackCwd writeOk archive prevCwd dest).1 = .ok ws →
      (unpackCwd writeOk archive prevCwd dest).2 = prevCwd) ∧
    (∀ e, _header_list_from_archive archive = .error e →
      (unpackCwd writeOk archive prevCwd dest).2 = prevCwd) ∧
    (∀ hs e, _header_list_from_archive archive = .ok hs →
      extractAll writeOk archive hs = .error e →
      (unpackCwd writeOk archive prevCwd dest).2 = dest) := by
  rcases hlist : _header_list_from_archive archive with e0 | hs0
  · have hval : unpackCwd writeOk archive prevCwd dest = (.error e0, prevCwd) := by
      unfold unpackCwd
      rw [hlist]
    refine ⟨?_, ?_, ?_⟩
    · intro ws hws
      rw [hval] at hws
      simp at hws
    · intro e _
      rw [hval]
    · intro hs e hok
      cases hok
  · rcases hex : extractAll writeOk archive hs0 with e1 | ws1
    · have hval : unpackCwd writeOk archive prevCwd dest = (.error e1, dest) := by
        unfold unpackCwd
        rw [hlist]
        show (match extractAll writeOk archive hs0 with
          | .error e => (Except.error e, dest)
          | .ok ws => (.ok ws, prevCwd)) = _
        rw [hex]
      refine ⟨?_, ?_, ?_⟩
      · intro ws hws
        rw [hval] at hws
        simp at hws
      · intro e he
        cases he
      · intro hs e hok hexx
        rw [hval]
    · have hval : unpackCwd writeOk archive prevCwd dest = (.ok ws1, prevCwd) := by
        unfold unpackCwd
        rw [hlist]
        show (match extractAll writeOk archive hs0 with
          | .error e => (Except.error e, dest)
          | .ok ws => (.ok ws, prevCwd)) = _
        rw [hex]
      refine ⟨?_, ?_, ?_⟩
      · intro ws hws
        rw [hval]
      · intro e he
        cases he
      · intro hs e hok hexx
        cases hok
        rw [hexx] at hex
        cases hex

/-- Witness for C8's amended statement: a successful demo unpack restores
the previous working directory. -/
theorem unpack_cwd_semantics_witness :
    (unpackCwd (fun _ => true) demoArchive [112] [100]).2 = [112] :=
  (unpack_cwd_semantics (fun _ => true) demoArchive [112] [100]).1
    [([97], [3]), ([98], [1, 2])] (by rfl)

/-- Encoding a path whose length does not fit the 2-byte field fails with
the built-in overflow error of `int.to_bytes`. -/
theorem from_file_overflow (path : List Nat) (t s : Nat)
    (ht : t < 256 ^ 4) (hs : s < 256 ^ 4) (hp : 256 ^ 2 ≤ path.length) :
    FileHeader.from_file path t s = .error .overflowError := by
  unfold FileHeader.from_file natToBytesE
  rw [if_pos ht, if_pos hs, if_neg (by omega)]
  rfl

/-- Counterexample to C9: a 65536-byte path makes header encoding fail
with Python's built-in `OverflowError` raised by the 2-byte length
conversion — not with the `InvalidPathError` the claim names, which
corresponds to no class in the source. -/
theorem long_path_error_counterexample :
    FileHeader.from_file (List.replicate 65536 97) 0 0 = .error .overflowError ∧
      CupError.overflowError ≠ CupError.invalidPathError := by
  constructor
  · apply from_file_overflow
    · norm_num
    · norm_num
    · rw [List.length_replicate]
      norm_num
  · decide

/-- Claim C9 as amended: header encoding fails whenever the path's byte
length exceeds 65535, the maximum value of the 2-byte `path_length`
field — but the failure is Python's built-in `OverflowError` from
`int.to_bytes(2, 'little')`, not a typed `InvalidPathError` (the source
defines no such class); for every path of byte length at most 65535, with
in-range timestamp and size, encoding succeeds and stores that path. -/
theorem encode_path_length_bound (path : List Nat) (t s : Nat)
    (ht : t < 2 ^ 32) (hsz : s < 2 ^ 32) :
    (65535 < path.length →
      FileHeader.from_file path t s = .error .overflowError ∧
      CupError.overflowError ≠ CupError.invalidPathError) ∧
    (path.length ≤ 65535 →
      FileHeader.from_file path t s = .ok (mkH 0 t s path) ∧
      (mkH 0 t s path).file_path = path) := by
  have hpow4 : (256 : Nat) ^ 4 = 2 ^ 32 := by norm_num
  have hpow2 : (256 : Nat) ^ 2 = 65536 := by norm_num
  constructor
  · intro hlong
    exact ⟨from_file_overflow path t s (by omega) (by omega) (by omega), by decide⟩
  · intro hshort
    have hp : path.length < 256 ^ 2 := by omega
    exact ⟨from_file_eq path t s (by omega) (by omega) hp, mkH_file_path _ _ _ _ hp⟩

/-- Witness for C9 at a one-byte path. -/
theorem encode_path_length_bound_witness :
    (65535 < ([97] : List Nat).length →
      FileHeader.from_file [97] 5 2 = .error .overflowError ∧
      CupError.overflowError ≠ CupError.invalidPathError) ∧
    (([97] : List Nat).length ≤ 65535 →
      FileHeader.from_file [97] 5 2 = .ok (mkH 0 5 2 [97]) ∧
      (mkH 0 5 2 [97]).file_path = [97]) :=
  encode_path_length_bound [97] 5 2 (by norm_num) (by norm_num)

/-- Python list indexing at a non-negative in-range index reads the
list's element there. -/
theorem pyListGet_pos (hs : List FileHeader) (i : Int) (h0 : 0 ≤ i)
    (hlt : i.toNat < hs.length) :
    pyListGet hs i = .ok (hs.get ⟨i.toNat, hlt⟩) := by
  unfold pyListGet
  have hif : (if i < 0 then i + (hs.length : Int) else i) = i := if_neg (by omega)
  simp only [hif]
  rw [dif_pos ⟨h0, hlt⟩]

/-- A renaming dict whose keys are all integers answers `none` for every
string key: Python `==` between an `int` and a `str` is always false. -/
theorem dictLookup_str_of_int (renamings : List (Selector × List Nat))
    (hint : ∀ r ∈ renamings, ∃ k, r.1 = Selector.int k) (s : List Nat) :
    dictLookup renamings (Selector.str s) = none := by
  unfold dictLookup
  rw [List.find?_eq_none.mpr ?_]
  · rfl
  · intro p hp
    rcases hint p (List.mem_reverse.mp hp) with ⟨k, hk⟩
    simp [hk]

/-- In `cup.archiver.unpack`, a non-empty renaming list whose selectors
are all integers filters every header out: nothing is renamed and nothing
is extracted. -/
theorem unpack_int_selectors_empty (archive : List Nat)
    (renamings : List (Selector × List Nat)) (hs : List FileHeader)
    (hlist : _header_list_from_archive archive = .ok hs)
    (hne : renamings ≠ []) (hint : ∀ r ∈ renamings, ∃ k, r.1 = Selector.int k) :
    unpack renamings archive = .ok [] := by
  unfold unpack
  rw [hlist, bind_ok_cup]
  rw [if_neg (by simp [List.isEmpty_iff, hne])]
  have hsel : (hs.filterMap fun fh =>
      (dictLookup renamings (Selector.str fh.file_path)).map (fh, ·)) = [] := by
    rw [List.filterMap_eq_nil_iff]
    intro fh _
    rw [dictLookup_str_of_int renamings hint fh.file_path]
    rfl
  rw [hsel]
  rfl

/-- Counterexample to C4: on the demo archive, `cup.archiver.unpack` with
the integer selector 1 extracts nothing at all — in particular the first
sorted entry (content `[3]`) is not extracted under the new path `[99]`. -/
theorem int_selector_counterexample :
    unpack [(Selector.int 1, [99])] demoArchive = .ok [] ∧
      ((Except.ok [] : Except CupError (List (List Nat × List Nat))) ≠
        Except.ok [([99], [3])]) :=
  ⟨by rfl, by simp⟩

/-- Claim C4 as amended: in `cup.archiver.unpack` a renaming selector is
a dict key compared literally with the header paths, so an integer
selector matches no header — with a non-empty all-integer renaming list
nothing is renamed or extracted.  The 1-based index resolution exists
only in `Cup.py`'s `_resolve_renaming` (`map_rename`): there an integer
selector `k` with `1 ≤ k ≤ N` resolves to the path of the `k`-th header
of the list it is given (`Cup.unpack` passes the path-sorted list), and a
string selector passes through, selecting by literal path equality. -/
theorem rename_selector_semantics (archive : List Nat)
    (renamings : List (Selector × List Nat)) (hs : List FileHeader)
    (hlist : _header_list_from_archive archive = .ok hs)
    (hne : renamings ≠ []) (hint : ∀ r ∈ renamings, ∃ k, r.1 = Selector.int k)
    (k : Int) (newPath s : List Nat) :
    unpack renamings archive = .ok [] ∧
    (∀ (fh : FileHeader), 1 ≤ k → hs[k.toNat - 1]? = some fh →
      map_rename hs (Selector.int k, newPath) = .ok (fh.file_path, newPath)) ∧
    map_rename hs (Selector.str s, newPath) = .ok (s, newPath) := by
  refine ⟨unpack_int_selectors_empty archive renamings hs hlist hne hint, ?_, rfl⟩
  intro fh hk1 hfh
  rcases List.getElem?_eq_some.mp hfh with ⟨hi, hget⟩
  have hlt : (k - 1).toNat < hs.length := by omega
  show (pyListGet hs (k - 1) >>= fun x => Except.ok (x.file_path, newPath)) = _
  rw [pyListGet_pos hs (k - 1) (by omega) hlt, bind_ok_cup]
  have hget' : hs.get ⟨k.toNat - 1, hi⟩ = fh := by
    rw [List.get_eq_getElem]
    exact hget
  have hfin : (⟨(k - 1).toNat, hlt⟩ : Fin hs.length) = ⟨k.toNat - 1, hi⟩ := by
    simp only [Fin.mk.injEq]
    omega
  rw [hfin, hget']

/-- Witness for C4's amended statement on the demo archive: the integer
selector extracts nothing in `archiver.unpack`, while `Cup.py`'s
resolution maps selector 1 to the first sorted path and passes string
selectors through. -/
theorem rename_selector_semantics_witness :
    unpack [(Selector.int 1, [99])] demoArchive = .ok [] ∧
    map_rename [mkH 51 7 1 [97], mkH 49 5 2 [98]] (Selector.int 1, [99]) =
      .ok ((mkH 51 7 1 [97]).file_path, [99]) ∧
    map_rename [mkH 51 7 1 [97], mkH 49 5 2 [98]] (Selector.str [97], [99]) =
      .ok ([97], [99]) := by
  have h := rename_selector_semantics demoArchive [(Selector.int 1, [99])]
    [mkH 51 7 1 [97], mkH 49 5 2 [98]] (by rfl) (by simp)
    (fun r hr => by
      simp at hr
      rw [hr]
      exact ⟨1, rfl⟩) 1 [99] [97]
  exact ⟨h.1, h.2.1 (mkH 51 7 1 [97]) (by norm_num) (by rfl), h.2.2⟩

/-- Claim C3: round trip — `unpack` with no renamings, applied to an
archive `pack` produced from any non-empty flattened input whose fields
fit the format (path length in 2 bytes, size and timestamp in 4, total
offsets in 8; archive name not among the inputs), writes back every
packed file: the written `(path, bytes)` pairs are a permutation — the
path sort — of the packed `(relative path, content)` pairs, each content
byte-identical.  Timestamps are stored truncated to integer seconds
(`mtime` here is the already-truncated value); extraction writes content
only and sets no file times. -/
theorem pack_unpack_roundtrip (archiveName : List Nat) (es : List PackEntry) (hne : es ≠ [])
    (hb : ∀ e ∈ es, e.path.length < 2 ^ 16 ∧ e.mtime < 2 ^ 32 ∧ e.content.length < 2 ^ 32)
    (hcoll : archiveName ∉ es.map PackEntry.srcPath)
    (hfit : FILE_SIGNATURE.length + entriesHeaderSize es + entriesContentSize es < 2 ^ 64) :
    ∃ archive ws, pack archiveName es = .ok archive ∧ unpack [] archive = .ok ws ∧
      ws.Perm (es.map fun e => (e.path, e.content)) := by
  have hpow2 : (256 : Nat) ^ 2 = 2 ^ 16 := by norm_num
  have hpow4 : (256 : Nat) ^ 4 = 2 ^ 32 := by norm_num
  have hpow8 : (256 : Nat) ^ 8 = 2 ^ 64 := by norm_num
  have hb' : ∀ e ∈ es,
      e.path.length < 256 ^ 2 ∧ e.mtime < 256 ^ 4 ∧ e.content.length < 256 ^ 4 := by
    intro e he
    rcases hb e he with ⟨x, y, z⟩
    exact ⟨by omega, by omega, by omega⟩
  have hfit' : FILE_SIGNATURE.length + entriesHeaderSize es + entriesContentSize es <
      256 ^ 8 := by omega
  have hpack := pack_eq archiveName es hb' hcoll hfit'
  obtain ⟨e0, t0, rfl⟩ : ∃ e0 t0, es = e0 :: t0 := by
    cases es with
    | nil => exact absurd rfl hne
    | cons a b => exact ⟨a, b, rfl⟩
  set base := FILE_SIGNATURE.length + entriesHeaderSize (e0 :: t0) with hbase
  have hsplit : packedHeaders base (e0 :: t0) =
      mkH base e0.mtime e0.content.length e0.path ::
        packedHeaders (base + e0.content.length) t0 := rfl
  set h1 := mkH base e0.mtime e0.content.length e0.path with hh1
  set rest := packedHeaders (base + e0.content.length) t0 with hrest
  set C := ((e0 :: t0).map PackEntry.content).flatten with hC
  have hbaselt : base < 256 ^ 8 := by omega
  have hcons : ∀ h ∈ h1 :: rest, h.consistent := by
    rw [← hsplit]
    exact packedHeaders_consistent (e0 :: t0) base fun e heq => (hb' e heq).1
  have hofs1 : h1.file_offset = base :=
    mkH_file_offset base e0.mtime e0.content.length e0.path hbaselt
  have hsent : h1.file_offset = FILE_SIGNATURE.length + totalHeaderSize (h1 :: rest) := by
    rw [hofs1, ← hsplit, totalHeaderSize_packedHeaders]
  have hlist := (headerList_wellformed h1 rest C hcons hsent).2
  rw [hsplit] at hpack
  have hunp := unpack_empty_renamings (mkArchive (h1 :: rest) C)
    (sortHeaders (h1 :: rest)) hlist
  refine ⟨mkArchive (h1 :: rest) C,
    (sortHeaders (h1 :: rest)).map (_unpack_file (mkArchive (h1 :: rest) C)),
    hpack, hunp, ?_⟩
  have hperm : (sortHeaders (h1 :: rest)).Perm (h1 :: rest) :=
    List.perm_insertionSort pathLe _
  have hmap : (h1 :: rest).map (_unpack_file (mkArchive (h1 :: rest) C)) =
      (e0 :: t0).map fun e => (e.path, e.content) := by
    have hpre : mkArchive (h1 :: rest) C =
        (FILE_SIGNATURE ++ headerBytes (h1 :: rest)) ++
          ((e0 :: t0).map PackEntry.content).flatten := by
      simp [mkArchive, hC, List.append_assoc]
    have hprelen : (FILE_SIGNATURE ++ headerBytes (h1 :: rest)).length = base := by
      rw [List.length_append, length_headerBytes, ← hsplit, totalHeaderSize_packedHeaders]
    have hext := map_extract_packed (mkArchive (h1 :: rest) C) (e0 :: t0)
      (FILE_SIGNATURE ++ headerBytes (h1 :: rest)) hpre
      (fun e heq => ⟨(hb' e heq).1, (hb' e heq).2.2⟩) (by rw [hprelen]; omega)
    rw [hprelen] at hext
    rw [← hsplit]
    exact hext
  have hfin := hperm.map (_unpack_file (mkArchive (h1 :: rest) C))
  rw [hmap] at hfin
  exact hfin

/-- Witness for C3: the two demo entries round-trip through the demo
archive. -/
theorem pack_unpack_roundtrip_witness :
    ∃ archive ws, pack [120] demoEntries = .ok archive ∧ unpack [] archive = .ok ws ∧
      ws.Perm (demoEntries.map fun e => (e.path, e.content)) :=
  pack_unpack_roundtrip [120] demoEntries (by decide) (by decide) (by decide) (by decide)

end Cup
